import Mathlib

/-!
Verification development for the gcal-syncer repository (full-reconciliation
variant, `sync.go`).  The Go data types and functions are shallowly embedded:
`calendar.Event` becomes the `Event` structure (string fields, Go zero values
as defaults), the Go `map[string]*calendar.Event` becomes an association list
`EventMap`, paginated listing becomes a function from calendar id to
`Except String (List Event)` (error = transport failure), and the concurrent
apply loop is modelled as a sequential fold that records the dispatched
operations and the collected errors (the per-operation effects in the Go code
are independent; only the aggregate is specified).
-/

/-- Embeds `calendar.EventDateTime`: the two fields compared by
`Syncer.equalEvent`.  Go zero values are empty strings. -/
structure EventDateTime where
  date : String := ""
  dateTime : String := ""
deriving DecidableEq

/-- Embeds the fields of `calendar.Event` that `sync.go` reads or writes.
Go zero values are empty strings. -/
structure Event where
  id : String := ""
  status : String := ""
  summary : String := ""
  description : String := ""
  location : String := ""
  start : EventDateTime := {}
  «end» : EventDateTime := {}
  transparency : String := ""
  iCalUID : String := ""
deriving DecidableEq

/-- One entry of `Config.SourceCalendars` (`id` and the title text prepended
to summaries; the Go field is named `Prefix`). -/
structure SourceCalendar where
  id : String := ""
  pfx : String := ""
deriving DecidableEq

/-- Embeds `Config` from `sync.go`. -/
structure Config where
  id : String := ""
  sourceCalendars : List SourceCalendar := []
  targetCalendarID : String := ""
  excludeCalendarIDs : List String := []
  busyOnly : Bool := false
  mask : String := ""
deriving DecidableEq

/-- Embeds `Syncer.shouldSync`:
`(!s.Config.BusyOnly || e.Transparency == "opaque" || e.Transparency == "") && e.Status != "cancelled"`. -/
def shouldSync (cfg : Config) (e : Event) : Bool :=
  (!cfg.busyOnly || e.transparency == "opaque" || e.transparency == "") &&
    e.status != "cancelled"

/-- The empty-transparency normalization performed at the top of
`Syncer.icalUID` (`if transparency == "" { transparency = "opaque" }`). -/
def normalizeTransparency (t : String) : String :=
  if t == "" then "opaque" else t

/-- Embeds `Syncer.icalUID`: `fmt.Sprintf("%s-%s@%s", e.Id, transparency, s.Config.ID)`
after normalizing empty transparency to `"opaque"`. -/
def icalUID (cfg : Config) (e : Event) : String :=
  e.id ++ "-" ++ normalizeTransparency e.transparency ++ "@" ++ cfg.id

/-- Embeds `Syncer.buildEvent`.  With a non-nil `base` the result is a copy of
`base` whose `Summary` is re-prefixed; otherwise a fresh event is built from
`original`, applying the mask and then the source's text before the title. -/
def buildEvent (cfg : Config) (base : Option Event) (original : Event)
    (pfx : String) : Event :=
  match base with
  | some b => { b with summary := pfx ++ b.summary }
  | none =>
    let e : Event :=
      { iCalUID := icalUID cfg original
        start := original.start
        «end» := original.«end»
        transparency := original.transparency }
    let e :=
      if cfg.mask == "" then
        { e with summary := original.summary
                 description := original.description
                 location := original.location }
      else
        { e with summary := cfg.mask }
    { e with summary := pfx ++ e.summary }

/-- Embeds `Syncer.equalEvent` (strict value equality on the listed fields). -/
def equalEvent (a b : Event) : Bool :=
  a.summary == b.summary &&
  a.description == b.description &&
  a.location == b.location &&
  (a.start.date == b.start.date && a.start.dateTime == b.start.dateTime) &&
  (a.«end».date == b.«end».date && a.«end».dateTime == b.«end».dateTime) &&
  a.transparency == b.transparency

/-- The Go `map[string]*calendar.Event` named `updates` in `Syncer.Sync`,
embedded as an association list (insertion-ordered; Go map iteration order is
unspecified, and no claim depends on the order). -/
abbrev EventMap := List (String × Event)

/-- Map lookup (`updates[id]`). -/
def mapGet : EventMap → String → Option Event
  | [], _ => none
  | (k, v) :: rest, key => if k == key then some v else mapGet rest key

/-- Map write (`updates[id] = e`): replaces in place, else appends. -/
def mapSet : EventMap → String → Event → EventMap
  | [], key, val => [(key, val)]
  | (k, v) :: rest, key, val =>
    if k == key then (k, val) :: rest else (k, v) :: mapSet rest key val

/-- Map key removal (`delete(updates, id)`). -/
def mapDel (m : EventMap) (key : String) : EventMap :=
  m.filter (fun p => p.1 != key)

/-- The body of the per-event callback in the source-calendar loop of
`Syncer.Sync`: skip when `!shouldSync`, otherwise merge via `buildEvent`. -/
def addSourceEvent (cfg : Config) (pfx : String) (m : EventMap) (e : Event) :
    EventMap :=
  if shouldSync cfg e then
    let id := icalUID cfg e
    mapSet m id (buildEvent cfg (mapGet m id) e pfx)
  else m

/-- The wrapped error `fmt.Errorf("listing calendar %q: %w", calID, err)`:
the offending calendar identifier together with the transport error text. -/
structure ListErr where
  calId : String
  msg : String
deriving DecidableEq

/-- A world of calendar listings: for each calendar id, either the complete
event listing (all pages concatenated, in `Syncer.list` callback order) or a
transport error. -/
abbrev Listing := String → Except String (List Event)

/-- The source-calendar loop of `Syncer.Sync` (lines 109-123): list each
source in order, folding events into the desired mapping; a listing error
aborts with the offending calendar id attached. -/
def buildSources (cfg : Config) (listing : Listing) :
    List SourceCalendar → EventMap → Except ListErr EventMap
  | [], m => .ok m
  | c :: rest, m =>
    match listing c.id with
    | .error msg => .error ⟨c.id, msg⟩
    | .ok evs => buildSources cfg listing rest (evs.foldl (addSourceEvent cfg c.pfx) m)

/-- The per-calendar body of the exclusion loop: delete the identity of every
listed event (note: no `shouldSync` filter here, matching the source). -/
def excludeEvents (cfg : Config) (m : EventMap) (evs : List Event) : EventMap :=
  evs.foldl (fun acc e => mapDel acc (icalUID cfg e)) m

/-- The exclusion loop of `Syncer.Sync` (lines 125-136). -/
def runExcludes (cfg : Config) (listing : Listing) :
    List String → EventMap → Except ListErr EventMap
  | [], m => .ok m
  | c :: rest, m =>
    match listing c with
    | .error msg => .error ⟨c, msg⟩
    | .ok evs => runExcludes cfg listing rest (excludeEvents cfg m evs)

/-- The body of the target-listing callback of `Syncer.Sync` (lines 140-149):
state is the remaining desired map plus the accumulated `deletes` slice of
target-local event ids. -/
def diffStep (st : EventMap × List String) (e : Event) : EventMap × List String :=
  match mapGet st.1 e.iCalUID with
  | none => (mapDel st.1 e.iCalUID, st.2 ++ [e.id])
  | some desired =>
    if equalEvent desired e then (mapDel st.1 e.iCalUID, st.2) else st

/-- The target diff: fold `diffStep` over the target listing starting from the
post-exclusion desired mapping and an empty `deletes` slice. -/
def diffTarget (m : EventMap) (ts : List Event) : EventMap × List String :=
  ts.foldl diffStep (m, [])

/-- The sequential phases of `Syncer.Sync`: build the desired mapping from all
sources, apply exclusions, list the target and diff.  Any listing error aborts
immediately with the offending calendar id. -/
def Sync (cfg : Config) (listing : Listing) :
    Except ListErr (EventMap × List String) :=
  match buildSources cfg listing cfg.sourceCalendars [] with
  | .error err => .error err
  | .ok m =>
    match runExcludes cfg listing cfg.excludeCalendarIDs m with
    | .error err => .error err
    | .ok m2 =>
      match listing cfg.targetCalendarID with
      | .error msg => .error ⟨cfg.targetCalendarID, msg⟩
      | .ok ts => .ok (diffTarget m2 ts)

/-- One apply-phase operation dispatched by `Syncer.Sync`: an
`Events.Import`-based upsert of a desired event, or an `Events.Delete` of a
target-local event id. -/
inductive ApplyOp where
  | importEvent (e : Event)
  | deleteEvent (targetEventId : String)
deriving DecidableEq

/-- The full list of operations the apply phase dispatches for a change set:
one import per remaining `updates` entry, then one delete per `deletes`
entry (dispatch order of the two Go loops). -/
def applyOps (ups : EventMap) (dels : List String) : List ApplyOp :=
  (ups.map fun p => ApplyOp.importEvent p.2) ++ dels.map ApplyOp.deleteEvent

/-- The body of the update-dispatch loop: dispatch the import and, on a
transport error, append the wrapped error to `errs`. -/
def applyUpStep (importRes : Event → Option String)
    (st : List ApplyOp × List String) (p : String × Event) :
    List ApplyOp × List String :=
  match importRes p.2 with
  | some msg =>
    (st.1 ++ [ApplyOp.importEvent p.2],
     st.2 ++ ["updating event \x22" ++ p.2.iCalUID ++ "\x22: " ++ msg])
  | none => (st.1 ++ [ApplyOp.importEvent p.2], st.2)

/-- The body of the delete-dispatch loop. -/
def applyDelStep (deleteRes : String → Option String)
    (st : List ApplyOp × List String) (id : String) :
    List ApplyOp × List String :=
  match deleteRes id with
  | some msg =>
    (st.1 ++ [ApplyOp.deleteEvent id],
     st.2 ++ ["deleting event \x22" ++ id ++ "\x22: " ++ msg])
  | none => (st.1 ++ [ApplyOp.deleteEvent id], st.2)

/-- The apply phase of `Syncer.Sync` (lines 156-192), modelled sequentially:
the transport outcome of each operation is given by `importRes` / `deleteRes`
(`some msg` = transport error).  The result is the list of dispatched
operations together with the accumulated `errs` strings, worded as in
`fmt.Errorf("updating event %q: %w", ...)` / `fmt.Errorf("deleting event %q: %w", ...)`. -/
def applyChanges (ups : EventMap) (dels : List String)
    (importRes : Event → Option String) (deleteRes : String → Option String) :
    List ApplyOp × List String :=
  dels.foldl (applyDelStep deleteRes) (ups.foldl (applyUpStep importRes) ([], []))

/-- The error string an operation contributes to `errs`, if it fails. -/
def opError (importRes : Event → Option String) (deleteRes : String → Option String) :
    ApplyOp → Option String
  | .importEvent e =>
    (importRes e).map fun msg => "updating event \x22" ++ e.iCalUID ++ "\x22: " ++ msg
  | .deleteEvent id =>
    (deleteRes id).map fun msg => "deleting event \x22" ++ id ++ "\x22: " ++ msg

/-- A whole run of `Syncer.Sync`: the sequential listing/build/diff phases
followed, only on success, by the apply phase.  Returns the dispatched
operations and either the listing error (nothing dispatched) or the collected
apply errors (`errors.Join(errs...)`; empty list = `nil` return). -/
def syncRun (cfg : Config) (listing : Listing)
    (importRes : Event → Option String) (deleteRes : String → Option String) :
    List ApplyOp × Except ListErr (List String) :=
  match Sync cfg listing with
  | .error err => ([], .error err)
  | .ok (ups, dels) =>
    let r := applyChanges ups dels importRes deleteRes
    (r.1, .ok r.2)

/-- The diff state of `Syncer.Sync` instrumented with two ghost accumulators
used only to state the classification invariant: `deletedIds` records the
embedded identity of every target event routed to the delete branch, and
`noops` the identity of every target event that matched its desired event
field-equal.  The `m` and `deletes` components evolve exactly as in
`diffStep`. -/
structure DiffTrace where
  m : EventMap
  deletes : List String
  deletedIds : List String
  noops : List String
deriving DecidableEq

/-- `diffStep` with the ghost accumulators. -/
def diffStepT (st : DiffTrace) (e : Event) : DiffTrace :=
  match mapGet st.m e.iCalUID with
  | none =>
    { st with m := mapDel st.m e.iCalUID
              deletes := st.deletes ++ [e.id]
              deletedIds := st.deletedIds ++ [e.iCalUID] }
  | some desired =>
    if equalEvent desired e then
      { st with m := mapDel st.m e.iCalUID, noops := st.noops ++ [e.iCalUID] }
    else st

/-- `diffTarget` with the ghost accumulators. -/
def diffTargetT (m : EventMap) (ts : List Event) : DiffTrace :=
  ts.foldl diffStepT { m := m, deletes := [], deletedIds := [], noops := [] }

/-! ### Association-list lemmas -/

theorem mapGet_mapSet_self (m : EventMap) (k : String) (v : Event) :
    mapGet (mapSet m k v) k = some v := by
  induction m with
  | nil => simp [mapSet, mapGet]
  | cons p rest ih =>
    obtain ⟨k', v'⟩ := p
    by_cases h : k' = k
    · simp [mapSet, mapGet, h]
    · simp only [mapSet, mapGet, beq_iff_eq, if_neg h]
      exact ih

theorem mapGet_mapDel_self (m : EventMap) (k : String) :
    mapGet (mapDel m k) k = none := by
  induction m with
  | nil => simp [mapDel, mapGet]
  | cons p rest ih =>
    obtain ⟨k', v'⟩ := p
    by_cases h : k' = k
    · simpa [mapDel, List.filter_cons, h] using ih
    · simpa [mapDel, List.filter_cons, h, mapGet] using ih

theorem mapGet_mapDel_ne (m : EventMap) (k k' : String) (h : k' ≠ k) :
    mapGet (mapDel m k) k' = mapGet m k' := by
  induction m with
  | nil => simp [mapDel, mapGet]
  | cons p rest ih =>
    obtain ⟨ka, va⟩ := p
    by_cases hk : ka = k
    · subst hk
      simpa [mapDel, List.filter_cons, mapGet, Ne.symm h] using ih
    · by_cases hk' : ka = k'
      · subst hk'
        simp [mapDel, List.filter_cons, mapGet, hk]
      · simpa [mapDel, List.filter_cons, mapGet, hk, hk'] using ih

theorem mapGet_mapDel_none (m : EventMap) (k x : String)
    (h : mapGet m x = none) : mapGet (mapDel m k) x = none := by
  by_cases hx : x = k
  · rw [hx]; exact mapGet_mapDel_self m k
  · rw [mapGet_mapDel_ne m k x hx]; exact h

theorem mapGet_all_none_nil (m : EventMap) (h : ∀ k, mapGet m k = none) :
    m = [] := by
  cases m with
  | nil => rfl
  | cons p rest =>
    obtain ⟨k, v⟩ := p
    have := h k
    simp [mapGet] at this

/-! ### Idempotence of the diff (claim C3) -/

theorem diff_idempotent_aux (ts : List Event) :
    ∀ (m : EventMap) (ds : List String),
      (∀ e ∈ ts, ∃ v, mapGet m e.iCalUID = some v ∧ equalEvent v e = true) →
      (∀ k v, mapGet m k = some v → ∃ e ∈ ts, e.iCalUID = k) →
      (ts.map Event.iCalUID).Nodup →
      ts.foldl diffStep (m, ds) = ([], ds) := by
  induction ts with
  | nil =>
    intro m ds _ hcover _
    have hm : m = [] := by
      apply mapGet_all_none_nil
      intro k
      cases hk : mapGet m k with
      | none => rfl
      | some v =>
        obtain ⟨e, he, _⟩ := hcover k v hk
        exact absurd he (List.not_mem_nil e)
    rw [hm]
    rfl
  | cons e rest ih =>
    intro m ds hall hcover hnd
    obtain ⟨v, hv, heq⟩ := hall e (List.mem_cons_self e rest)
    rw [List.map_cons, List.nodup_cons] at hnd
    obtain ⟨hnotmem, hndr⟩ := hnd
    have step : diffStep (m, ds) e = (mapDel m e.iCalUID, ds) := by
      simp [diffStep, hv, heq]
    rw [List.foldl_cons, step]
    apply ih
    · intro e' he'
      obtain ⟨v', hv', heq'⟩ := hall e' (List.mem_cons_of_mem e he')
      have hne : e'.iCalUID ≠ e.iCalUID := by
        intro hcontra
        exact hnotmem (hcontra ▸ List.mem_map_of_mem Event.iCalUID he')
      refine ⟨v', ?_, heq'⟩
      rw [mapGet_mapDel_ne m e.iCalUID e'.iCalUID hne]
      exact hv'
    · intro k v' hk
      have hne : k ≠ e.iCalUID := by
        intro hkk
        rw [hkk, mapGet_mapDel_self] at hk
        cases hk
      rw [mapGet_mapDel_ne m e.iCalUID k hne] at hk
      obtain ⟨e', he', hide⟩ := hcover k v' hk
      rcases List.mem_cons.mp he' with rfl | hmem
      · exact absurd hide hne.symm
      · exact ⟨e', hmem, hide⟩
    · exact hndr

/-- C3: if the target listing holds, for each desired identity, exactly one
event with that embedded identity whose compared fields are strictly equal to
the desired event, and no other events, the diff yields an empty change set —
no creates/updates and no deletes, so the apply phase dispatches nothing. -/
theorem diff_idempotent (m : EventMap) (ts : List Event)
    (hall : ∀ e ∈ ts, ∃ v, mapGet m e.iCalUID = some v ∧ equalEvent v e = true)
    (hcover : ∀ k v, mapGet m k = some v → ∃ e ∈ ts, e.iCalUID = k)
    (hnd : (ts.map Event.iCalUID).Nodup) :
    diffTarget m ts = ([], []) ∧ applyOps [] [] = [] :=
  ⟨diff_idempotent_aux ts m [] hall hcover hnd, rfl⟩

/-- Witness for `diff_idempotent` at a concrete input. -/
theorem diff_idempotent_witness :
    diffTarget [("u", {})] [{ id := "tid", iCalUID := "u" }] = ([], []) ∧
    applyOps [] [] = [] := by
  refine diff_idempotent [("u", {})] [{ id := "tid", iCalUID := "u" }] ?_ ?_ ?_
  · intro e' he'
    rw [List.mem_singleton] at he'
    subst he'
    exact ⟨{}, rfl, rfl⟩
  · intro k v hk
    rcases eq_or_ne "u" k with hke | hke
    · exact ⟨{ id := "tid", iCalUID := "u" }, List.mem_singleton_self _, hke⟩
    · simp [mapGet, hke] at hk
  · decide

/-! ### Exclusion precedence (claim C4) -/

theorem excludeEvents_cons (cfg : Config) (m : EventMap) (e : Event)
    (evs : List Event) :
    excludeEvents cfg m (e :: evs) =
      excludeEvents cfg (mapDel m (icalUID cfg e)) evs := rfl

theorem excludeEvents_none_pres (cfg : Config) (evs : List Event) :
    ∀ m x, mapGet m x = none → mapGet (excludeEvents cfg m evs) x = none := by
  induction evs with
  | nil => intro m x h; exact h
  | cons e rest ih =>
    intro m x h
    rw [excludeEvents_cons]
    exact ih _ _ (mapGet_mapDel_none _ _ _ h)

theorem excludeEvents_kills (cfg : Config) (evs : List Event) :
    ∀ m e, e ∈ evs → mapGet (excludeEvents cfg m evs) (icalUID cfg e) = none := by
  induction evs with
  | nil => intro _ e h; cases h
  | cons e0 rest ih =>
    intro m e h
    rw [excludeEvents_cons]
    rcases List.mem_cons.mp h with rfl | hmem
    · exact excludeEvents_none_pres cfg rest _ _ (mapGet_mapDel_self _ _)
    · exact ih _ _ hmem

theorem runExcludes_none_pres (cfg : Config) (listing : Listing)
    (cs : List String) :
    ∀ m m2 x, runExcludes cfg listing cs m = .ok m2 →
      mapGet m x = none → mapGet m2 x = none := by
  induction cs with
  | nil =>
    intro m m2 x h hx
    simp only [runExcludes, Except.ok.injEq] at h
    exact h ▸ hx
  | cons c rest ih =>
    intro m m2 x h hx
    simp only [runExcludes] at h
    split at h
    · exact absurd h (by simp)
    · exact ih _ _ _ h (excludeEvents_none_pres cfg _ _ _ hx)

theorem runExcludes_kills (cfg : Config) (listing : Listing) (cs : List String) :
    ∀ m m2 c evs e, c ∈ cs → listing c = .ok evs → e ∈ evs →
      runExcludes cfg listing cs m = .ok m2 →
      mapGet m2 (icalUID cfg e) = none := by
  induction cs with
  | nil => intro _ _ _ _ _ hc; cases hc
  | cons c0 rest ih =>
    intro m m2 c evs e hc hl he h
    simp only [runExcludes] at h
    split at h
    · exact absurd h (by simp)
    · rename_i evs0 hl0
      rcases List.mem_cons.mp hc with rfl | hmem
      · rw [hl] at hl0
        injection hl0 with hevs
        exact runExcludes_none_pres cfg listing rest _ _ _ h
          (excludeEvents_kills cfg _ m e (hevs ▸ he))
      · exact ih _ _ _ _ _ hmem hl he h

theorem diff_none_pres (ts : List Event) :
    ∀ (st : EventMap × List String) x, mapGet st.1 x = none →
      mapGet (ts.foldl diffStep st).1 x = none := by
  induction ts with
  | nil => intro st x h; exact h
  | cons e rest ih =>
    intro st x h
    rw [List.foldl_cons]
    apply ih
    unfold diffStep
    split
    · exact mapGet_mapDel_none _ _ _ h
    · split
      · exact mapGet_mapDel_none _ _ _ h
      · exact h

theorem Sync_ok_parts (cfg : Config) (listing : Listing) (ups : EventMap)
    (dels : List String) (h : Sync cfg listing = .ok (ups, dels)) :
    ∃ m m2 ts, buildSources cfg listing cfg.sourceCalendars [] = .ok m ∧
      runExcludes cfg listing cfg.excludeCalendarIDs m = .ok m2 ∧
      listing cfg.targetCalendarID = .ok ts ∧
      diffTarget m2 ts = (ups, dels) := by
  unfold Sync at h
  split at h
  · exact absurd h (by simp)
  · rename_i m hm
    split at h
    · exact absurd h (by simp)
    · rename_i m2 hm2
      split at h
      · exact absurd h (by simp)
      · rename_i ts hts
        injection h with h'
        exact ⟨m, m2, ts, hm, hm2, hts, h'⟩

/-- C4: an identity produced by an event of an included source that is also
produced by an event of an exclusion calendar never survives into the change
set: exclusion runs strictly after the full desired mapping is built from all
sources, so the surviving `updates` never contain it, whatever the order of
the source list. -/
theorem exclusion_precedence (cfg : Config) (listing : Listing)
    (ups : EventMap) (dels : List String)
    (hok : Sync cfg listing = .ok (ups, dels))
    (sc : SourceCalendar) (hsc : sc ∈ cfg.sourceCalendars)
    (sevs : List Event) (hsl : listing sc.id = .ok sevs)
    (se : Event) (hse : se ∈ sevs)
    (c : String) (hc : c ∈ cfg.excludeCalendarIDs)
    (evs : List Event) (hl : listing c = .ok evs)
    (e : Event) (he : e ∈ evs)
    (hsame : icalUID cfg se = icalUID cfg e) :
    mapGet ups (icalUID cfg se) = none := by
  obtain ⟨m, m2, ts, _, hm2, _, hdiff⟩ := Sync_ok_parts cfg listing ups dels hok
  have h2 : mapGet m2 (icalUID cfg e) = none :=
    runExcludes_kills cfg listing cfg.excludeCalendarIDs m m2 c evs e hc hl he hm2
  have h3 : mapGet (diffTarget m2 ts).1 (icalUID cfg e) = none :=
    diff_none_pres ts (m2, []) (icalUID cfg e) h2
  rw [hdiff] at h3
  rw [hsame]
  exact h3

/-- Witness for `exclusion_precedence` at a concrete input: one source and
one exclusion calendar both listing the event `e`; the run succeeds with an
empty change set and the excluded identity is absent from `updates`. -/
theorem exclusion_precedence_witness :
    mapGet []
      (icalUID
        { id := "s", sourceCalendars := [{ id := "src" }],
          targetCalendarID := "tgt", excludeCalendarIDs := ["ex"] }
        { id := "e" }) = none :=
  exclusion_precedence
    { id := "s", sourceCalendars := [{ id := "src" }],
      targetCalendarID := "tgt", excludeCalendarIDs := ["ex"] }
    (fun cid => if cid = "src" then .ok [{ id := "e" }]
      else if cid = "ex" then .ok [{ id := "e" }] else .ok [])
    [] [] (by rfl)
    { id := "src" } (by decide)
    [{ id := "e" }] (by rfl)
    { id := "e" } (by decide)
    "ex" (by decide)
    [{ id := "e" }] (by rfl)
    { id := "e" } (by decide)
    rfl

/-! ### The identity scheme (claim C1) -/

theorem dash_data : "-".data = ['-'] := rfl

theorem at_sign_data : "@".data = ['@'] := rfl

theorem opaque_data : "opaque".data = ['o', 'p', 'a', 'q', 'u', 'e'] := rfl

theorem transparent_data :
    "transparent".data = ['t', 'r', 'a', 'n', 's', 'p', 'a', 'r', 'e', 'n', 't'] := rfl

theorem icalUID_data (cfg : Config) (e : Event) :
    (icalUID cfg e).data =
      e.id.data ++ ('-' :: ((normalizeTransparency e.transparency).data ++
        ('@' :: cfg.id.data))) := by
  simp [icalUID, String.data_append, dash_data, at_sign_data, List.append_assoc]

theorem normalizeTransparency_mem (t : String)
    (h : t = "" ∨ t = "opaque" ∨ t = "transparent") :
    normalizeTransparency t = "opaque" ∨ normalizeTransparency t = "transparent" := by
  rcases h with h | h | h <;> simp [normalizeTransparency, h]

theorem opaque_transparent_clash (a b s : List Char) :
    ¬ (a ++ ('-' :: ("opaque".data ++ ('@' :: s))) =
       b ++ ('-' :: ("transparent".data ++ ('@' :: s)))) := by
  intro h
  have h' := congrArg List.reverse h
  simp only [opaque_data, transparent_data, List.reverse_append, List.reverse_cons,
    List.reverse_nil, List.append_assoc, List.nil_append, List.cons_append,
    List.singleton_append] at h'
  have h'' := List.append_cancel_left h'
  simp at h''

/-- C1 (amended): the identity scheme is deterministic, and on the actual
domain of the transparency field (`""`, `opaque`, `transparent`) two
identities under the same scope are equal iff the event ids are equal and the
normalized transparencies (empty normalized to `opaque`) are equal.  In
particular switching an event between `opaque` and `transparent` changes its
identity, while switching between `""` and `opaque` does not. -/
theorem icalUID_eq_iff (cfg : Config) (e1 e2 : Event)
    (h1 : e1.transparency = "" ∨ e1.transparency = "opaque" ∨
      e1.transparency = "transparent")
    (h2 : e2.transparency = "" ∨ e2.transparency = "opaque" ∨
      e2.transparency = "transparent") :
    icalUID cfg e1 = icalUID cfg e2 ↔
      (e1.id = e2.id ∧
        normalizeTransparency e1.transparency =
          normalizeTransparency e2.transparency) := by
  have hn1 := normalizeTransparency_mem _ h1
  have hn2 := normalizeTransparency_mem _ h2
  constructor
  · intro h
    have hd := congrArg String.data h
    rw [icalUID_data, icalUID_data] at hd
    rcases hn1 with hA | hA <;> rcases hn2 with hB | hB
    · rw [hA, hB] at hd
      exact ⟨String.ext (List.append_cancel_right hd), by rw [hA, hB]⟩
    · rw [hA, hB] at hd
      exact absurd hd (opaque_transparent_clash _ _ _)
    · rw [hA, hB] at hd
      exact absurd hd.symm (opaque_transparent_clash _ _ _)
    · rw [hA, hB] at hd
      exact ⟨String.ext (List.append_cancel_right hd), by rw [hA, hB]⟩
  · rintro ⟨hid, hnt⟩
    simp [icalUID, hid, hnt]

/-- Witness for `icalUID_eq_iff` at a concrete input. -/
theorem icalUID_eq_iff_witness :
    icalUID { id := "scope" } { id := "a", transparency := "opaque" } =
      icalUID { id := "scope" } { id := "a", transparency := "transparent" } ↔
      (({ id := "a", transparency := "opaque" } : Event).id =
        ({ id := "a", transparency := "transparent" } : Event).id ∧
       normalizeTransparency "opaque" = normalizeTransparency "transparent") :=
  icalUID_eq_iff { id := "scope" } { id := "a", transparency := "opaque" }
    { id := "a", transparency := "transparent" }
    (Or.inr (Or.inl rfl)) (Or.inr (Or.inr rfl))

/-- C1 counterexample: the pairs `("e1", "")` and `("e1", "opaque")` are
distinct (event id, transparency) pairs, yet under the same scope they
produce the same identity — empty transparency is normalized to `opaque`
before the identity string is formatted. -/
theorem icalUID_not_injective_on_raw_pairs :
    (("e1", "") : String × String) ≠ ("e1", "opaque") ∧
    icalUID { id := "scope" } { id := "e1", transparency := "" } =
      icalUID { id := "scope" } { id := "e1", transparency := "opaque" } := by
  exact ⟨by decide, rfl⟩

/-! ### The build filter (claims C8, C10) -/

/-- The busy-only predicate as the spec words it ("either the busy-only flag
is disabled, or the event's transparency is not `free`"), stated for
comparison with the source's `shouldSync`. -/
def specShouldSync (cfg : Config) (e : Event) : Bool :=
  (!cfg.busyOnly || e.transparency != "free") && e.status != "cancelled"

/-- C8 (amended): a source event contributes to the desired mapping iff its
status is not `cancelled` and it passes the busy-only predicate, where the
predicate is: busy-only is disabled, or the event's transparency is `opaque`
or empty; an event failing this is skipped without affecting the mapping. -/
theorem shouldSync_characterization (cfg : Config) (e : Event) :
    (shouldSync cfg e = true ↔
      (e.status ≠ "cancelled" ∧
        (cfg.busyOnly = false ∨ e.transparency = "opaque" ∨ e.transparency = ""))) ∧
    (∀ pfx m, shouldSync cfg e = false → addSourceEvent cfg pfx m e = m) := by
  constructor
  · simp only [shouldSync, Bool.and_eq_true, Bool.or_eq_true, Bool.not_eq_true',
      beq_iff_eq, bne_iff_ne, ne_eq]
    tauto
  · intro pfx m h
    simp [addSourceEvent, h]

/-- Witness for `shouldSync_characterization` at a concrete input. -/
theorem shouldSync_characterization_witness :
    addSourceEvent { busyOnly := true } "" [] { transparency := "transparent" } = [] :=
  (shouldSync_characterization { busyOnly := true }
    { transparency := "transparent" }).2 "" [] (by decide)

/-- C8 counterexample: with busy-only enabled, an event whose transparency is
`transparent` (the service's value for free) satisfies the claim's predicate
(its transparency is not the literal `free`), yet `shouldSync` rejects it. -/
theorem shouldSync_ne_spec_predicate :
    specShouldSync { busyOnly := true } { transparency := "transparent" } = true ∧
    shouldSync { busyOnly := true } { transparency := "transparent" } = false := by
  decide

/-- C10: empty transparency is normalized to `opaque`: the identity computed
with transparency `""` equals the identity with transparency `opaque` (same
event id), and an event with empty transparency always passes the busy-only
filter (it is skipped only when cancelled). -/
theorem empty_transparency_opaque (cfg : Config) (e1 e2 : Event)
    (hid : e1.id = e2.id) (h1 : e1.transparency = "")
    (h2 : e2.transparency = "opaque") (hstat : e1.status ≠ "cancelled") :
    icalUID cfg e1 = icalUID cfg e2 ∧ shouldSync cfg e1 = true := by
  constructor
  · simp [icalUID, normalizeTransparency, h1, h2, hid]
  · simp [shouldSync, h1, hstat]

/-- Witness for `empty_transparency_opaque` at a concrete input. -/
theorem empty_transparency_opaque_witness :
    icalUID { id := "scope" } { id := "ev" } =
      icalUID { id := "scope" } { id := "ev", transparency := "opaque" } ∧
    shouldSync { id := "scope" } { id := "ev" } = true :=
  empty_transparency_opaque { id := "scope" } { id := "ev" }
    { id := "ev", transparency := "opaque" } rfl rfl rfl (by decide)

/-! ### The build transforms (claims C9, C5) -/

/-- C9: when the configured mask is non-empty, a fresh desired event's title
is the mask (then prefixed) and its description and location are stripped;
when the mask is empty, title, description and location are copied from the
source (the title then prefixed). -/
theorem mask_transform (cfg : Config) (e : Event) (pfx : String) :
    (cfg.mask ≠ "" →
      (buildEvent cfg none e pfx).summary = pfx ++ cfg.mask ∧
      (buildEvent cfg none e pfx).description = "" ∧
      (buildEvent cfg none e pfx).location = "") ∧
    (cfg.mask = "" →
      (buildEvent cfg none e pfx).summary = pfx ++ e.summary ∧
      (buildEvent cfg none e pfx).description = e.description ∧
      (buildEvent cfg none e pfx).location = e.location) := by
  constructor
  · intro h
    simp [buildEvent, h]
  · intro h
    simp [buildEvent, h]

/-- Witness for `mask_transform` at a concrete input. -/
theorem mask_transform_witness :
    (buildEvent { mask := "BUSY" } none { summary := "Lunch" } "p: ").summary =
      "p: " ++ "BUSY" ∧
    (buildEvent { mask := "BUSY" } none { summary := "Lunch" } "p: ").description = "" ∧
    (buildEvent { mask := "BUSY" } none { summary := "Lunch" } "p: ").location = "" :=
  (mask_transform { mask := "BUSY" } { summary := "Lunch" } "p: ").1 (by decide)

/-- C5: when a source event merges onto an existing desired entry, the stored
entry keeps the first occurrence's start, end, transparency, description,
location (and embedded identity), and only the title changes: the later
source's text is prepended to the existing title. -/
theorem layering_merge (cfg : Config) (m : EventMap) (e : Event) (pfx : String)
    (b : Event) (hb : mapGet m (icalUID cfg e) = some b)
    (hs : shouldSync cfg e = true) :
    mapGet (addSourceEvent cfg pfx m e) (icalUID cfg e) =
      some (buildEvent cfg (some b) e pfx) ∧
    (buildEvent cfg (some b) e pfx).start = b.start ∧
    (buildEvent cfg (some b) e pfx).«end» = b.«end» ∧
    (buildEvent cfg (some b) e pfx).transparency = b.transparency ∧
    (buildEvent cfg (some b) e pfx).description = b.description ∧
    (buildEvent cfg (some b) e pfx).location = b.location ∧
    (buildEvent cfg (some b) e pfx).iCalUID = b.iCalUID ∧
    (buildEvent cfg (some b) e pfx).summary = pfx ++ b.summary := by
  refine ⟨?_, rfl, rfl, rfl, rfl, rfl, rfl, rfl⟩
  simp only [addSourceEvent, hs, if_true]
  rw [hb]
  exact mapGet_mapSet_self m (icalUID cfg e) (buildEvent cfg (some b) e pfx)

/-- Witness for `layering_merge` at a concrete input. -/
theorem layering_merge_witness :
    mapGet (addSourceEvent {} "P: " [("-opaque@", { summary := "S" })] {})
        (icalUID {} {}) =
      some (buildEvent {} (some { summary := "S" }) {} "P: ") ∧
    (buildEvent {} (some { summary := "S" }) {} "P: ").start =
      ({ summary := "S" } : Event).start ∧
    (buildEvent {} (some { summary := "S" }) {} "P: ").«end» =
      ({ summary := "S" } : Event).«end» ∧
    (buildEvent {} (some { summary := "S" }) {} "P: ").transparency =
      ({ summary := "S" } : Event).transparency ∧
    (buildEvent {} (some { summary := "S" }) {} "P: ").description =
      ({ summary := "S" } : Event).description ∧
    (buildEvent {} (some { summary := "S" }) {} "P: ").location =
      ({ summary := "S" } : Event).location ∧
    (buildEvent {} (some { summary := "S" }) {} "P: ").iCalUID =
      ({ summary := "S" } : Event).iCalUID ∧
    (buildEvent {} (some { summary := "S" }) {} "P: ").summary =
      "P: " ++ ({ summary := "S" } : Event).summary :=
  layering_merge {} [("-opaque@", { summary := "S" })] {} "P: "
    { summary := "S" } (by decide) (by decide)


/-! ### Listing-phase failure aborts the run (claim C7) -/

/-- The calendars `Syncer.Sync` lists, in listing order: sources, then
exclusion calendars, then the target. -/
def calSeq (cfg : Config) : List String :=
  cfg.sourceCalendars.map SourceCalendar.id ++ cfg.excludeCalendarIDs ++
    [cfg.targetCalendarID]

theorem buildSources_ok_all (cfg : Config) (listing : Listing)
    (cs : List SourceCalendar) :
    ∀ m m', buildSources cfg listing cs m = .ok m' →
      ∀ c ∈ cs, ∃ evs, listing c.id = .ok evs := by
  induction cs with
  | nil => intro m m' _ c hc; cases hc
  | cons c0 rest ih =>
    intro m m' h c hc
    simp only [buildSources] at h
    split at h
    · exact absurd h (by simp)
    · rename_i evs hl
      rcases List.mem_cons.mp hc with rfl | hmem
      · exact ⟨evs, hl⟩
      · exact ih _ _ h c hmem

theorem buildSources_error (cfg : Config) (listing : Listing)
    (cs : List SourceCalendar) :
    ∀ m err, buildSources cfg listing cs m = .error err →
      err.calId ∈ cs.map SourceCalendar.id ∧
        listing err.calId = .error err.msg := by
  induction cs with
  | nil => intro m err h; simp [buildSources] at h
  | cons c0 rest ih =>
    intro m err h
    simp only [buildSources] at h
    split at h
    · rename_i msg hl
      injection h with h'
      rw [← h']
      exact ⟨by rw [List.map_cons]; exact List.mem_cons_self _ _, hl⟩
    · obtain ⟨h1, h2⟩ := ih _ _ h
      exact ⟨by rw [List.map_cons]; exact List.mem_cons_of_mem _ h1, h2⟩

theorem runExcludes_ok_all (cfg : Config) (listing : Listing)
    (cs : List String) :
    ∀ m m', runExcludes cfg listing cs m = .ok m' →
      ∀ c ∈ cs, ∃ evs, listing c = .ok evs := by
  induction cs with
  | nil => intro m m' _ c hc; cases hc
  | cons c0 rest ih =>
    intro m m' h c hc
    simp only [runExcludes] at h
    split at h
    · exact absurd h (by simp)
    · rename_i evs hl
      rcases List.mem_cons.mp hc with rfl | hmem
      · exact ⟨evs, hl⟩
      · exact ih _ _ h c hmem

theorem runExcludes_error (cfg : Config) (listing : Listing)
    (cs : List String) :
    ∀ m err, runExcludes cfg listing cs m = .error err →
      err.calId ∈ cs ∧ listing err.calId = .error err.msg := by
  induction cs with
  | nil => intro m err h; simp [runExcludes] at h
  | cons c0 rest ih =>
    intro m err h
    simp only [runExcludes] at h
    split at h
    · rename_i msg hl
      injection h with h'
      rw [← h']
      exact ⟨List.mem_cons_self _ _, hl⟩
    · obtain ⟨h1, h2⟩ := ih _ _ h
      exact ⟨List.mem_cons_of_mem _ h1, h2⟩

theorem Sync_error_spec (cfg : Config) (listing : Listing) (err : ListErr)
    (h : Sync cfg listing = .error err) :
    err.calId ∈ calSeq cfg ∧ listing err.calId = .error err.msg := by
  unfold Sync at h
  split at h
  · rename_i e hb
    injection h with h'
    obtain ⟨h1, h2⟩ := buildSources_error cfg listing _ _ _ (h' ▸ hb)
    refine ⟨?_, h2⟩
    simp only [calSeq, List.mem_append]
    exact Or.inl (Or.inl h1)
  · rename_i m hb
    split at h
    · rename_i e he
      injection h with h'
      obtain ⟨h1, h2⟩ := runExcludes_error cfg listing _ _ _ (h' ▸ he)
      refine ⟨?_, h2⟩
      simp only [calSeq, List.mem_append]
      exact Or.inl (Or.inr h1)
    · rename_i m2 he
      split at h
      · rename_i msg ht
        injection h with h'
        rw [← h']
        refine ⟨?_, ht⟩
        simp only [calSeq, List.mem_append, List.mem_singleton]
        exact Or.inr trivial
      · exact absurd h (by simp)

theorem Sync_ok_all_listed (cfg : Config) (listing : Listing) (ups : EventMap)
    (dels : List String) (h : Sync cfg listing = .ok (ups, dels)) :
    ∀ c ∈ calSeq cfg, ∃ evs, listing c = .ok evs := by
  obtain ⟨m, m2, ts, hb, he, ht, _⟩ := Sync_ok_parts cfg listing ups dels h
  intro c hc
  simp only [calSeq, List.mem_append, List.mem_singleton] at hc
  rcases hc with (hc | hc) | hc
  · obtain ⟨sc, hsc, rfl⟩ := List.mem_map.mp hc
    exact buildSources_ok_all cfg listing _ _ _ hb sc hsc
  · exact runExcludes_ok_all cfg listing _ _ _ he c hc
  · subst hc; exact ⟨ts, ht⟩

/-- C7: if any calendar in the run's listing sequence (a source, an exclusion
calendar, or the target) fails with a transport error, the run returns an
error carrying a failing calendar's identifier and its transport error, and
no create/update/delete operation is dispatched against the target. -/
theorem listing_failure_aborts (cfg : Config) (listing : Listing)
    (importRes : Event → Option String) (deleteRes : String → Option String)
    (hfail : ∃ c ∈ calSeq cfg, ∃ msg, listing c = .error msg) :
    (syncRun cfg listing importRes deleteRes).1 = [] ∧
    ∃ c msg, c ∈ calSeq cfg ∧ listing c = .error msg ∧
      (syncRun cfg listing importRes deleteRes).2 = .error ⟨c, msg⟩ := by
  cases hs : Sync cfg listing with
  | ok v =>
    obtain ⟨c, hc, msg, hmsg⟩ := hfail
    obtain ⟨ups, dels⟩ := v
    obtain ⟨evs, hevs⟩ := Sync_ok_all_listed cfg listing ups dels hs c hc
    rw [hevs] at hmsg
    exact Except.noConfusion hmsg
  | error err =>
    obtain ⟨h1, h2⟩ := Sync_error_spec cfg listing err hs
    refine ⟨?_, err.calId, err.msg, h1, h2, ?_⟩
    · simp [syncRun, hs]
    · simp [syncRun, hs]

/-- Witness for `listing_failure_aborts` at a concrete input. -/
theorem listing_failure_aborts_witness :
    (syncRun { id := "s", sourceCalendars := [{ id := "src" }],
               targetCalendarID := "tgt" }
      (fun cid => if cid = "src" then .error "boom" else .ok [])
      (fun _ => none) (fun _ => none)).1 = [] ∧
    ∃ c msg,
      c ∈ calSeq { id := "s", sourceCalendars := [{ id := "src" }],
                   targetCalendarID := "tgt" } ∧
      (fun cid => if cid = "src"
          then (Except.error "boom" : Except String (List Event))
          else Except.ok []) c = Except.error msg ∧
      (syncRun { id := "s", sourceCalendars := [{ id := "src" }],
                 targetCalendarID := "tgt" }
        (fun cid => if cid = "src" then .error "boom" else .ok [])
        (fun _ => none) (fun _ => none)).2 = .error ⟨c, msg⟩ :=
  listing_failure_aborts
    { id := "s", sourceCalendars := [{ id := "src" }], targetCalendarID := "tgt" }
    (fun cid => if cid = "src" then .error "boom" else .ok [])
    (fun _ => none) (fun _ => none)
    ⟨"src", by decide, "boom", by rfl⟩

/-! ### Apply-phase partial-failure isolation (claim C6) -/

theorem applyUpStep_fold (importRes : Event → Option String)
    (deleteRes : String → Option String) (ups : EventMap) :
    ∀ st : List ApplyOp × List String,
      ups.foldl (applyUpStep importRes) st =
        (st.1 ++ ups.map (fun p => ApplyOp.importEvent p.2),
         st.2 ++ (ups.map fun p => ApplyOp.importEvent p.2).filterMap
           (opError importRes deleteRes)) := by
  induction ups with
  | nil => intro st; simp
  | cons p rest ih =>
    intro st
    rw [List.foldl_cons, ih]
    cases hi : importRes p.2 with
    | none =>
      simp [applyUpStep, hi, opError, List.filterMap_cons, List.append_assoc]
    | some msg =>
      simp [applyUpStep, hi, opError, List.filterMap_cons, List.append_assoc]

theorem applyDelStep_fold (importRes : Event → Option String)
    (deleteRes : String → Option String) (dels : List String) :
    ∀ st : List ApplyOp × List String,
      dels.foldl (applyDelStep deleteRes) st =
        (st.1 ++ dels.map ApplyOp.deleteEvent,
         st.2 ++ (dels.map ApplyOp.deleteEvent).filterMap
           (opError importRes deleteRes)) := by
  induction dels with
  | nil => intro st; simp
  | cons d rest ih =>
    intro st
    rw [List.foldl_cons, ih]
    cases hd : deleteRes d with
    | none =>
      simp [applyDelStep, hd, opError, List.filterMap_cons, List.append_assoc]
    | some msg =>
      simp [applyDelStep, hd, opError, List.filterMap_cons, List.append_assoc]

/-- The apply phase always dispatches every operation of the change set and
collects exactly the error strings of the failing operations, in dispatch
order. -/
theorem applyChanges_spec (ups : EventMap) (dels : List String)
    (importRes : Event → Option String) (deleteRes : String → Option String) :
    applyChanges ups dels importRes deleteRes =
      (applyOps ups dels,
        (applyOps ups dels).filterMap (opError importRes deleteRes)) := by
  unfold applyChanges
  rw [applyUpStep_fold importRes deleteRes, applyDelStep_fold importRes deleteRes]
  simp [applyOps, List.filterMap_append]

/-- C6: every dispatched operation runs to completion regardless of other
operations' outcomes; when the change set splits around exactly one failing
operation, the run reports exactly that operation's wrapped error; and with no
failing operation the collected error list is empty (the run returns `nil`). -/
theorem apply_partial_failure_isolation (ups : EventMap) (dels : List String)
    (importRes : Event → Option String) (deleteRes : String → Option String)
    (pre post : List ApplyOp) (bad : ApplyOp) (msg : String) :
    ((applyOps ups dels = pre ++ bad :: post ∧
      opError importRes deleteRes bad = some msg ∧
      (∀ o ∈ pre, opError importRes deleteRes o = none) ∧
      (∀ o ∈ post, opError importRes deleteRes o = none)) →
      (applyChanges ups dels importRes deleteRes).1 = applyOps ups dels ∧
      (applyChanges ups dels importRes deleteRes).2 = [msg]) ∧
    ((∀ o ∈ applyOps ups dels, opError importRes deleteRes o = none) →
      (applyChanges ups dels importRes deleteRes).1 = applyOps ups dels ∧
      (applyChanges ups dels importRes deleteRes).2 = []) := by
  constructor
  · rintro ⟨hsplit, hbad, hpre, hpost⟩
    rw [applyChanges_spec]
    refine ⟨rfl, ?_⟩
    show (applyOps ups dels).filterMap (opError importRes deleteRes) = [msg]
    rw [hsplit, List.filterMap_append, List.filterMap_cons, hbad]
    rw [List.filterMap_eq_nil_iff.mpr hpre, List.filterMap_eq_nil_iff.mpr hpost]
    rfl
  · intro hall
    rw [applyChanges_spec]
    exact ⟨rfl, List.filterMap_eq_nil_iff.mpr hall⟩

/-- Witness for `apply_partial_failure_isolation` at a concrete input: one
update whose import fails and one delete that succeeds. -/
theorem apply_partial_failure_isolation_witness :
    (applyChanges [("u", { iCalUID := "u" })] ["d1"]
      (fun _ => some "boom") (fun _ => none)).1 =
      applyOps [("u", { iCalUID := "u" })] ["d1"] ∧
    (applyChanges [("u", { iCalUID := "u" })] ["d1"]
      (fun _ => some "boom") (fun _ => none)).2 =
      ["updating event \x22u\x22: boom"] := by
  refine (apply_partial_failure_isolation [("u", { iCalUID := "u" })] ["d1"]
    (fun _ => some "boom") (fun _ => none)
    [] [ApplyOp.deleteEvent "d1"] (ApplyOp.importEvent { iCalUID := "u" })
    "updating event \x22u\x22: boom").1 ⟨rfl, rfl, ?_, ?_⟩
  · intro o ho
    cases ho
  · intro o ho
    rw [List.mem_singleton] at ho
    subst ho
    rfl

/-! ### The diff partitions the identities (claim C2) -/

theorem diffStepT_proj (st : DiffTrace) (e : Event) :
    (diffStepT st e).m = (diffStep (st.m, st.deletes) e).1 ∧
    (diffStepT st e).deletes = (diffStep (st.m, st.deletes) e).2 := by
  cases hsc : mapGet st.m e.iCalUID with
  | none => simp [diffStepT, diffStep, hsc]
  | some v =>
    cases heq : equalEvent v e with
    | true => simp [diffStepT, diffStep, hsc, heq]
    | false => simp [diffStepT, diffStep, hsc, heq]

theorem diffTargetT_proj_aux (ts : List Event) :
    ∀ st : DiffTrace,
      (ts.foldl diffStepT st).m = (ts.foldl diffStep (st.m, st.deletes)).1 ∧
      (ts.foldl diffStepT st).deletes = (ts.foldl diffStep (st.m, st.deletes)).2 := by
  induction ts with
  | nil => intro st; exact ⟨rfl, rfl⟩
  | cons e rest ih =>
    intro st
    rw [List.foldl_cons, List.foldl_cons]
    have hp := diffStepT_proj st e
    have IH := ih (diffStepT st e)
    rw [hp.1, hp.2] at IH
    rw [Prod.mk.eta] at IH
    exact IH

/-- The instrumented diff agrees with the source diff on the surviving
`updates` map and the `deletes` slice. -/
theorem diffTargetT_proj (m : EventMap) (ts : List Event) :
    (diffTargetT m ts).m = (diffTarget m ts).1 ∧
    (diffTargetT m ts).deletes = (diffTarget m ts).2 :=
  diffTargetT_proj_aux ts { m := m, deletes := [], deletedIds := [], noops := [] }

theorem diffStepT_untouched (st : DiffTrace) (e : Event) (x : String)
    (hx : x ≠ e.iCalUID) :
    mapGet (diffStepT st e).m x = mapGet st.m x ∧
    ((x ∈ (diffStepT st e).deletedIds) ↔ x ∈ st.deletedIds) ∧
    ((x ∈ (diffStepT st e).noops) ↔ x ∈ st.noops) := by
  unfold diffStepT
  split
  · exact ⟨mapGet_mapDel_ne _ _ _ hx, by simp [hx], Iff.rfl⟩
  · split
    · exact ⟨mapGet_mapDel_ne _ _ _ hx, Iff.rfl, by simp [hx]⟩
    · exact ⟨rfl, Iff.rfl, Iff.rfl⟩

theorem diffT_untouched (ts : List Event) :
    ∀ (st : DiffTrace) (x : String), x ∉ ts.map Event.iCalUID →
      mapGet (ts.foldl diffStepT st).m x = mapGet st.m x ∧
      ((x ∈ (ts.foldl diffStepT st).deletedIds) ↔ x ∈ st.deletedIds) ∧
      ((x ∈ (ts.foldl diffStepT st).noops) ↔ x ∈ st.noops) := by
  induction ts with
  | nil => intro st x _; exact ⟨rfl, Iff.rfl, Iff.rfl⟩
  | cons e rest ih =>
    intro st x hx
    rw [List.map_cons, List.mem_cons] at hx
    push_neg at hx
    obtain ⟨hne, hrest⟩ := hx
    rw [List.foldl_cons]
    have hstep := diffStepT_untouched st e x hne
    have IH := ih (diffStepT st e) x hrest
    exact ⟨IH.1.trans hstep.1, IH.2.1.trans hstep.2.1, IH.2.2.trans hstep.2.2⟩


theorem diffT_found (ts : List Event) :
    ∀ (st : DiffTrace) (e : Event), e ∈ ts → (ts.map Event.iCalUID).Nodup →
      (mapGet st.m e.iCalUID = none →
        mapGet (ts.foldl diffStepT st).m e.iCalUID = none ∧
        e.iCalUID ∈ (ts.foldl diffStepT st).deletedIds ∧
        ((e.iCalUID ∈ (ts.foldl diffStepT st).noops) ↔ e.iCalUID ∈ st.noops)) ∧
      (∀ v, mapGet st.m e.iCalUID = some v → equalEvent v e = true →
        mapGet (ts.foldl diffStepT st).m e.iCalUID = none ∧
        ((e.iCalUID ∈ (ts.foldl diffStepT st).deletedIds) ↔
          e.iCalUID ∈ st.deletedIds) ∧
        e.iCalUID ∈ (ts.foldl diffStepT st).noops) ∧
      (∀ v, mapGet st.m e.iCalUID = some v → equalEvent v e = false →
        mapGet (ts.foldl diffStepT st).m e.iCalUID = some v ∧
        ((e.iCalUID ∈ (ts.foldl diffStepT st).deletedIds) ↔
          e.iCalUID ∈ st.deletedIds) ∧
        ((e.iCalUID ∈ (ts.foldl diffStepT st).noops) ↔ e.iCalUID ∈ st.noops)) := by
  induction ts with
  | nil => intro st e he _; cases he
  | cons e0 rest ih =>
    intro st e he hnd
    rw [List.map_cons, List.nodup_cons] at hnd
    obtain ⟨hnotmem, hndr⟩ := hnd
    rw [List.foldl_cons]
    rcases List.mem_cons.mp he with rfl | hmem
    · cases hsc : mapGet st.m e.iCalUID with
      | none =>
        have hstep : diffStepT st e =
            { st with
              m := mapDel st.m e.iCalUID
              deletes := st.deletes ++ [e.id]
              deletedIds := st.deletedIds ++ [e.iCalUID] } := by
          simp [diffStepT, hsc]
        have hunt := diffT_untouched rest (diffStepT st e) e.iCalUID hnotmem
        rw [hstep] at hunt
        rw [hstep]
        refine ⟨fun _ => ⟨?_, ?_, ?_⟩,
          fun v hv _ => absurd hv (by simp),
          fun v hv _ => absurd hv (by simp)⟩
        · rw [hunt.1]
          exact mapGet_mapDel_self st.m e.iCalUID
        · exact hunt.2.1.mpr (by simp)
        · exact hunt.2.2
      | some v0 =>
        have hunt := diffT_untouched rest (diffStepT st e) e.iCalUID hnotmem
        cases heq : equalEvent v0 e with
        | true =>
          have hstep : diffStepT st e =
              { st with
                m := mapDel st.m e.iCalUID
                noops := st.noops ++ [e.iCalUID] } := by
            simp [diffStepT, hsc, heq]
          rw [hstep] at hunt
          rw [hstep]
          refine ⟨fun hn => absurd hn (by simp),
            fun v hv _ => ⟨?_, ?_, ?_⟩, fun v hv hveq => ?_⟩
          · rw [hunt.1]
            exact mapGet_mapDel_self st.m e.iCalUID
          · exact hunt.2.1
          · exact hunt.2.2.mpr (by simp)
          · injection hv with hv
            rw [hv] at heq
            rw [heq] at hveq
            exact Bool.noConfusion hveq
        | false =>
          have hstep : diffStepT st e = st := by
            simp [diffStepT, hsc, heq]
          rw [hstep] at hunt
          rw [hstep]
          refine ⟨fun hn => absurd hn (by simp),
            fun v hv hveq => ?_, fun v hv _ => ⟨?_, hunt.2.1, hunt.2.2⟩⟩
          · injection hv with hv
            rw [hv] at heq
            rw [heq] at hveq
            exact Bool.noConfusion hveq
          · rw [hunt.1, hsc]
            exact hv
    · have hne : e.iCalUID ≠ e0.iCalUID := by
        intro hcontra
        exact hnotmem (hcontra ▸ List.mem_map_of_mem Event.iCalUID hmem)
      have hstep := diffStepT_untouched st e0 e.iCalUID hne
      have IH := ih (diffStepT st e0) e hmem hndr
      refine ⟨fun hn => ?_, fun v hv hveq => ?_, fun v hv hveq => ?_⟩
      · rw [← hstep.1] at hn
        obtain ⟨a, b, c⟩ := IH.1 hn
        exact ⟨a, b, c.trans hstep.2.2⟩
      · rw [← hstep.1] at hv
        obtain ⟨a, b, c⟩ := IH.2.1 v hv hveq
        exact ⟨a, b.trans hstep.2.1, c⟩
      · rw [← hstep.1] at hv
        obtain ⟨a, b, c⟩ := IH.2.2 v hv hveq
        exact ⟨a, b.trans hstep.2.1, c.trans hstep.2.2⟩

/-- C2 (amended): provided each embedded identity appears at most once in the
target listing, the diff classifies every identity seen in the desired mapping
or the target listing into exactly one of the three classes: create/update
(the identity survives in the final `updates` map), delete (identity of a
target event routed to the `deletes` branch), or no-op (identity of a target
event that matched its desired event field-equal); moreover the instrumented
diff agrees with the source diff on `updates` and `deletes`. -/
theorem diff_partitions_identities (m : EventMap) (ts : List Event)
    (hnd : (ts.map Event.iCalUID).Nodup) (x : String)
    (hx : mapGet m x ≠ none ∨ x ∈ ts.map Event.iCalUID) :
    ((diffTargetT m ts).m = (diffTarget m ts).1 ∧
     (diffTargetT m ts).deletes = (diffTarget m ts).2) ∧
    ((mapGet (diffTargetT m ts).m x ≠ none ∧
        x ∉ (diffTargetT m ts).deletedIds ∧ x ∉ (diffTargetT m ts).noops) ∨
     (mapGet (diffTargetT m ts).m x = none ∧
        x ∈ (diffTargetT m ts).deletedIds ∧ x ∉ (diffTargetT m ts).noops) ∨
     (mapGet (diffTargetT m ts).m x = none ∧
        x ∉ (diffTargetT m ts).deletedIds ∧ x ∈ (diffTargetT m ts).noops)) := by
  refine ⟨diffTargetT_proj m ts, ?_⟩
  by_cases hmem : x ∈ ts.map Event.iCalUID
  · obtain ⟨e, he, rfl⟩ := List.mem_map.mp hmem
    have hf := diffT_found ts
      { m := m, deletes := [], deletedIds := [], noops := [] } e he hnd
    cases hsc : mapGet m e.iCalUID with
    | none =>
      obtain ⟨a, b, c⟩ := hf.1 hsc
      exact Or.inr (Or.inl ⟨a, b, fun hcon => (List.not_mem_nil _) (c.mp hcon)⟩)
    | some v =>
      cases heq : equalEvent v e with
      | true =>
        obtain ⟨a, b, c⟩ := hf.2.1 v hsc heq
        exact Or.inr (Or.inr ⟨a, fun hcon => (List.not_mem_nil _) (b.mp hcon), c⟩)
      | false =>
        obtain ⟨a, b, c⟩ := hf.2.2 v hsc heq
        refine Or.inl ⟨?_, fun hcon => (List.not_mem_nil _) (b.mp hcon),
          fun hcon => (List.not_mem_nil _) (c.mp hcon)⟩
        unfold diffTargetT
        rw [a]
        simp
  · rcases hx with hxm | hxm
    · have hu := diffT_untouched ts
        { m := m, deletes := [], deletedIds := [], noops := [] } x hmem
      refine Or.inl ⟨?_, fun hcon => (List.not_mem_nil _) (hu.2.1.mp hcon),
        fun hcon => (List.not_mem_nil _) (hu.2.2.mp hcon)⟩
      unfold diffTargetT
      rw [hu.1]
      exact hxm
    · exact absurd hxm hmem

/-- Witness for `diff_partitions_identities` at a concrete input. -/
theorem diff_partitions_identities_witness :
    ((diffTargetT [("X", {})] [{ id := "t1", iCalUID := "X" }]).m =
       (diffTarget [("X", {})] [{ id := "t1", iCalUID := "X" }]).1 ∧
     (diffTargetT [("X", {})] [{ id := "t1", iCalUID := "X" }]).deletes =
       (diffTarget [("X", {})] [{ id := "t1", iCalUID := "X" }]).2) ∧
    ((mapGet (diffTargetT [("X", {})] [{ id := "t1", iCalUID := "X" }]).m "X" ≠ none ∧
        "X" ∉ (diffTargetT [("X", {})] [{ id := "t1", iCalUID := "X" }]).deletedIds ∧
        "X" ∉ (diffTargetT [("X", {})] [{ id := "t1", iCalUID := "X" }]).noops) ∨
     (mapGet (diffTargetT [("X", {})] [{ id := "t1", iCalUID := "X" }]).m "X" = none ∧
        "X" ∈ (diffTargetT [("X", {})] [{ id := "t1", iCalUID := "X" }]).deletedIds ∧
        "X" ∉ (diffTargetT [("X", {})] [{ id := "t1", iCalUID := "X" }]).noops) ∨
     (mapGet (diffTargetT [("X", {})] [{ id := "t1", iCalUID := "X" }]).m "X" = none ∧
        "X" ∉ (diffTargetT [("X", {})] [{ id := "t1", iCalUID := "X" }]).deletedIds ∧
        "X" ∈ (diffTargetT [("X", {})] [{ id := "t1", iCalUID := "X" }]).noops)) :=
  diff_partitions_identities [("X", {})] [{ id := "t1", iCalUID := "X" }]
    (by decide) "X" (by decide)

/-- C2 counterexample: when the target listing repeats an embedded identity,
the classes overlap — with desired `X` and two target copies of `X` (the
first field-equal), the identity `X` is recorded both as a no-op and as a
deletion, so the three sets do not partition the identities for an arbitrary
target listing. -/
theorem diff_partition_fails_on_duplicate_uids :
    "X" ∈ (diffTargetT [("X", {})]
      [{ id := "t1", iCalUID := "X" }, { id := "t2", iCalUID := "X" }]).noops ∧
    "X" ∈ (diffTargetT [("X", {})]
      [{ id := "t1", iCalUID := "X" }, { id := "t2", iCalUID := "X" }]).deletedIds := by
  decide
